import Mathlib

set_option maxHeartbeats 1000000

/- Shallow embedding of translate_xliff_with_anthropic
   (src/adobe_gcs_connector.py, lines 445-641) together with the string
   primitives of Python that the function uses. -/

/-- Python str whitespace over the ASCII range, as used by str.strip and
by the regex class \s. -/
def isPySpace (c : Char) : Bool :=
  c = ' ' || c = '\t' || c = '\n' || c = '\r' || c = '\x0b' || c = '\x0c'

/-- Python regex class \w over the ASCII range. -/
def isWordChar (c : Char) : Bool :=
  c.isAlphanum || c = '_'

def pyStripList (l : List Char) : List Char :=
  ((l.dropWhile isPySpace).reverse.dropWhile isPySpace).reverse

/-- Python str.strip(). -/
def pyStrip (s : String) : String := String.mk (pyStripList s.data)

/-- Python substring test `pat in s`. -/
def pyContains (s pat : String) : Bool := decide (pat.data <:+: s.data)

/-- Python str.endswith. -/
def pyEndsWith (s suffix_ : String) : Bool := decide (suffix_.data <:+ s.data)

/-- Python str.lower() over the ASCII range. -/
def pyLower (s : String) : String := String.mk (s.data.map Char.toLower)

/-- Python str.upper() over the ASCII range. -/
def pyUpper (s : String) : String := String.mk (s.data.map Char.toUpper)

/-- Python s.split(sep) for a non-empty separator s0 :: srest, on char
lists: cut at each leftmost, non-overlapping occurrence of the
separator.  Structural recursion on a fuel argument; every step consumes
at least one character, so fuel = length of the input always suffices
and the fuel-exhausted fallback is unreachable from pySplit. -/
def splitOnFuel (s0 : Char) (srest : List Char) :
    Nat → List Char → List (List Char)
  | _, [] => [[]]
  | 0, l => [l]
  | fuel + 1, c :: cs =>
    if (s0 :: srest).isPrefixOf (c :: cs) then
      [] :: splitOnFuel s0 srest fuel (cs.drop srest.length)
    else
      match splitOnFuel s0 srest fuel cs with
      | [] => [[c]]
      | h :: t => (c :: h) :: t

/-- Python s.split(sep); the separator is never empty at the call sites
in the source. -/
def pySplit (s sep : String) : List String :=
  match sep.data with
  | [] => [s]
  | s0 :: srest => (splitOnFuel s0 srest s.data.length s.data).map String.mk

/- ## The in-memory parsed tree (xml.etree.ElementTree.Element)

An Element has a tag, an attribute map, leading text, a child list and
trailing text (tail).  Attributes are modelled as an association list. -/

inductive XmlElem : Type where
  | mk : String → List (String × String) → Option String → List XmlElem →
      Option String → XmlElem
deriving Inhabited

mutual
def xmlElemDecEq : (a b : XmlElem) → Decidable (a = b)
  | .mk t1 a1 x1 c1 l1, .mk t2 a2 x2 c2 l2 =>
    letI : Decidable (c1 = c2) := xmlElemListDecEq c1 c2
    decidable_of_iff (t1 = t2 ∧ a1 = a2 ∧ x1 = x2 ∧ c1 = c2 ∧ l1 = l2)
      (by
        constructor
        · rintro ⟨h1, h2, h3, h4, h5⟩; rw [h1, h2, h3, h4, h5]
        · intro h; injection h with h1 h2 h3 h4 h5; exact ⟨h1, h2, h3, h4, h5⟩)
def xmlElemListDecEq : (a b : List XmlElem) → Decidable (a = b)
  | [], [] => isTrue rfl
  | [], _ :: _ => isFalse (by simp)
  | _ :: _, [] => isFalse (by simp)
  | x :: xs, y :: ys =>
    letI : Decidable (x = y) := xmlElemDecEq x y
    letI : Decidable (xs = ys) := xmlElemListDecEq xs ys
    decidable_of_iff (x = y ∧ xs = ys)
      (by
        constructor
        · rintro ⟨h1, h2⟩; rw [h1, h2]
        · intro h; injection h with h1 h2; exact ⟨h1, h2⟩)
end

instance : DecidableEq XmlElem := xmlElemDecEq

def XmlElem.tag : XmlElem → String
  | .mk t _ _ _ _ => t

def XmlElem.attrs : XmlElem → List (String × String)
  | .mk _ a _ _ _ => a

def XmlElem.text : XmlElem → Option String
  | .mk _ _ x _ _ => x

def XmlElem.children : XmlElem → List XmlElem
  | .mk _ _ _ c _ => c

def XmlElem.tail : XmlElem → Option String
  | .mk _ _ _ _ tl => tl

/- Element.itertext(): the element's own text followed by, for every
child in order, the child's itertext and then the child's tail. -/
mutual
def itertext : XmlElem → String
  | .mk _ _ tx ch _ => tx.getD "" ++ itertextList ch
def itertextList : List XmlElem → String
  | [] => ""
  | c :: cs => itertext c ++ (XmlElem.tail c).getD "" ++ itertextList cs
end

/-- Paths into the tree: a list of child indices.  A path plays the role
of the identity of an Element object inside one parsed document. -/
abbrev XmlPath := List Nat

def getAt? : XmlElem → XmlPath → Option XmlElem
  | e, [] => some e
  | e, i :: rest =>
    match e.children.get? i with
    | none => none
    | some c => getAt? c rest

/-- Replace the i-th entry of a list by f applied to it; out-of-range
indices leave the list unchanged. -/
def updateNth (f : XmlElem → XmlElem) : List XmlElem → Nat → List XmlElem
  | [], _ => []
  | x :: xs, 0 => f x :: xs
  | x :: xs, i + 1 => x :: updateNth f xs i

/-- Apply f to the node addressed by the path (identity when the path is
dangling), rebuilding the spine. -/
def modifyAt : XmlElem → XmlPath → (XmlElem → XmlElem) → XmlElem
  | e, [], f => f e
  | e, i :: rest, f =>
      .mk e.tag e.attrs e.text
        (updateNth (fun c => modifyAt c rest f) e.children i) e.tail

/-- `target.text = t` / `element.text = t` at a path. -/
def setTextAt (r : XmlElem) (p : XmlPath) (t : String) : XmlElem :=
  modifyAt r p (fun e => .mk e.tag e.attrs (some t) e.children e.tail)

/-- `element.append(c)` at a path. -/
def appendChildAt (r : XmlElem) (p : XmlPath) (c : XmlElem) : XmlElem :=
  modifyAt r p (fun e => .mk e.tag e.attrs e.text (e.children ++ [c]) e.tail)

/- root.findall('.//*'): every strict descendant, paired with its path,
in document (preorder) order. -/
mutual
def descendantNodes : XmlElem → List (XmlPath × XmlElem)
  | .mk _ _ _ ch _ => descNodesList 0 ch
def descNodesList : Nat → List XmlElem → List (XmlPath × XmlElem)
  | _, [] => []
  | i, c :: cs =>
      (([i], c) :: (descendantNodes c).map (fun pc => (i :: pc.1, pc.2)))
        ++ descNodesList (i + 1) cs
end

/- ## Segment discovery (lines 464-531) -/

/-- Heading keywords of pass 2 (line 474). -/
def headingTagKeywords : List String :=
  ["title", "header", "h1", "h2", "h3", "h4", "h5", "h6"]

/-- Heading keywords used on resname values in pass 4 (line 486). -/
def resnameKeywords : List String := ["title", "header", "heading"]

/-- Pass 1 (lines 465-468): elements whose tag ends with 'trans-unit'. -/
def transUnitPass (root : XmlElem) : List XmlPath :=
  ((descendantNodes root).filter
    (fun pc => pyEndsWith pc.2.tag "trans-unit")).map Prod.fst

/-- Pass 2 (lines 471-475): elements whose lowercased tag contains a
heading keyword. -/
def headerPass (root : XmlElem) : List XmlPath :=
  ((descendantNodes root).filter
    (fun pc => headingTagKeywords.any
      (fun k => pyContains (pyLower pc.2.tag) k))).map Prod.fst

/-- Pass 3 (lines 478-480): elements with attribute translatable="yes". -/
def translatableAttrPass (root : XmlElem) : List XmlPath :=
  ((descendantNodes root).filter
    (fun pc => pc.2.attrs.lookup "translatable" == some "yes")).map Prod.fst

/-- Pass 4 (lines 483-487): elements with a resname attribute whose
lowercased value contains a heading keyword. -/
def resnamePass (root : XmlElem) : List XmlPath :=
  ((descendantNodes root).filter
    (fun pc =>
      match pc.2.attrs.lookup "resname" with
      | some v => resnameKeywords.any (fun k => pyContains (pyLower v) k)
      | none => false)).map Prod.fst

/-- Lines 490-493: combine the passes, dropping an element already seen
(Python `elem not in all_elements`; Element equality is identity, which a
path captures). -/
def combineDedup (l : List XmlPath) : List XmlPath :=
  l.foldl (fun acc e => if e ∈ acc then acc else acc ++ [e]) []

def allElements (root : XmlElem) : List XmlPath :=
  combineDedup
    (transUnitPass root ++ headerPass root ++ translatableAttrPass root
      ++ resnamePass root)

/-- Lines 511-515: scan the children; the last child whose tag ends with
'source' wins, likewise 'target' (the loop overwrites on every hit). -/
def findST : Nat → List XmlElem → Option Nat × Option Nat →
    Option Nat × Option Nat
  | _, [], st => st
  | j, c :: cs, st =>
      findST (j + 1) cs
        (if pyEndsWith c.tag "source" then (some j, st.2)
         else if pyEndsWith c.tag "target" then (st.1, some j)
         else st)

def findSourceTarget (e : XmlElem) : Option Nat × Option Nat :=
  findST 0 e.children (none, none)

/-- One entry of translation_items (line 531):
(i, element_type, element, source, target, source_text). -/
structure TransItem : Type where
  seqId : Nat
  elemType : String
  elemPath : XmlPath
  sourcePath : Option XmlPath
  targetPath : Option XmlPath
  sourceText : String
deriving DecidableEq, Inhabited

/-- Lines 501-531 for one element of all_elements: classify it, locate
source/target children, extract and strip the text, and keep the item
only when the text is non-empty. -/
def mkItemCore (root : XmlElem) (i : Nat) (p : XmlPath) : Option TransItem :=
  match getAt? root p with
  | none => none
  | some e =>
    if pyEndsWith e.tag "trans-unit" then
      match findSourceTarget e with
      | (none, _) => none
      | (some j, tj) =>
        match e.children.get? j with
        | none => none
        | some sc =>
          let stext := pyStrip (itertext sc)
          if stext = "" then none
          else
            some ⟨i, "trans-unit", p, some (p ++ [j]),
                  tj.map (fun k => p ++ [k]), stext⟩
    else
      let stext := pyStrip (itertext e)
      if stext = "" then none
      else some ⟨i, "direct", p, some p, none, stext⟩

/-- translation_items: enumerate all_elements keeping the enumeration
index as the item id, and drop empty-text elements (lines 501-531). -/
def translationItems (root : XmlElem) : List TransItem :=
  (allElements root).enum.filterMap (fun ip => mkItemCore root ip.1 ip.2)

/-- Lines 539-542: the combined prompt body. -/
def buildCombinedText (items : List TransItem) : String :=
  String.intercalate "\n---ITEM---\n"
    (items.map (fun it =>
      "[ITEM-" ++ toString it.seqId ++ "][" ++ pyUpper it.elemType ++ "] "
        ++ it.sourceText))

/- ## Response parsing (lines 548-578) -/

def itemDelimiter : String := "\n---ITEM---\n"

/-- Line 552-555: the ordered fallback delimiter list. -/
def possiblePatterns : List String :=
  ["\n---ITEM---\n", "\n- - -ITEM- - -\n", "\n--ITEM--\n",
   "\n---\n", "\n- - -\n", "\n--\n", "\n\n", "\n"]

/-- Lines 548-559: keep the exact delimiter if it occurs, otherwise the
first pattern of the list that occurs; default to the exact delimiter. -/
def chooseSplitPattern (text : String) : String :=
  if pyContains text itemDelimiter then itemDelimiter
  else
    match possiblePatterns.find? (fun p => pyContains text p) with
    | some p => p
    | none => itemDelimiter

/-- Line 562: split by the identified pattern. -/
def splitParts (text : String) : List String :=
  pySplit text (chooseSplitPattern text)

/- ## Marker stripping (lines 564-570): re.sub(r'\[ITEM-\d+\]\[\w+\]\s*', '', part) -/

/-- Consume a literal from the head of the input. -/
def dropLit : List Char → List Char → Option (List Char)
  | [], l => some l
  | _ :: _, [] => none
  | p :: ps, c :: cs => if c = p then dropLit ps cs else none

/-- One attempted match of the regex at the head of the input, returning
the remainder after the match.  Each greedy run (\d+, \w+, \s*) is
followed by a required character outside its class (or by the pattern
end), so maximal-run matching coincides with backtracking regex
matching. -/
def matchMarker (l : List Char) : Option (List Char) :=
  match dropLit "[ITEM-".data l with
  | none => none
  | some r1 =>
    if (r1.takeWhile Char.isDigit).isEmpty then none
    else
      match dropLit "][".data (r1.dropWhile Char.isDigit) with
      | none => none
      | some r3 =>
        if (r3.takeWhile isWordChar).isEmpty then none
        else
          match dropLit "]".data (r3.dropWhile isWordChar) with
          | none => none
          | some r5 => some (r5.dropWhile isPySpace)

theorem dropLit_length {p l r : List Char} (h : dropLit p l = some r) :
    r.length + p.length = l.length := by
  induction p generalizing l with
  | nil => simp [dropLit] at h; simp [h]
  | cons c cs ih =>
    match l with
    | [] => simp [dropLit] at h
    | x :: xs =>
      simp only [dropLit] at h
      split at h
      · have := ih h
        simp only [List.length_cons]
        omega
      · exact absurd h (by simp)

theorem lengthDropWhileLe (p : Char → Bool) (l : List Char) :
    (l.dropWhile p).length ≤ l.length := by
  induction l with
  | nil => simp
  | cons c cs ih =>
    rw [List.dropWhile_cons]
    split
    · exact Nat.le_succ_of_le ih
    · simp

theorem matchMarker_length_lt {l r : List Char} (h : matchMarker l = some r) :
    r.length < l.length := by
  unfold matchMarker at h
  split at h
  · simp at h
  · rename_i r1 h1
    have hl1 := dropLit_length h1
    split at h
    · simp at h
    · split at h
      · simp at h
      · rename_i r3 h3
        have hl3 := dropLit_length h3
        have hd1 := lengthDropWhileLe Char.isDigit r1
        split at h
        · simp at h
        · split at h
          · simp at h
          · rename_i r5 h5
            have hl5 := dropLit_length h5
            have hd3 := lengthDropWhileLe isWordChar r3
            have hd5 := lengthDropWhileLe isPySpace r5
            injection h with h
            subst h
            simp only [List.length_cons] at hl1 hl3 hl5
            omega

/-- The scan of re.sub: at every position try the pattern; on a match,
drop the matched span and continue after it, otherwise keep the
character and move one position right.  Structural recursion on a fuel
argument; by matchMarker_length_lt every step consumes at least one
character, so fuel = length of the input always suffices. -/
def stripMarkersFuel : Nat → List Char → List Char
  | _, [] => []
  | 0, l => l
  | fuel + 1, c :: cs =>
    match matchMarker (c :: cs) with
    | some rest => stripMarkersFuel fuel rest
    | none => c :: stripMarkersFuel fuel cs

def stripMarkersList (l : List Char) : List Char :=
  stripMarkersFuel l.length l

def stripMarkersStr (s : String) : String := String.mk (stripMarkersList s.data)

/-- Lines 565-570 for one chunk: strip, then remove markers. -/
def cleanPart (part : String) : String := stripMarkersStr (pyStrip part)

def cleanedParts (text : String) : List String := (splitParts text).map cleanPart

/- ## Length reconciliation (lines 572-578) -/

/-- The while-loop (lines 573-574): append the last chunk (or "" when
there is none) until there are at least n chunks.  Structural recursion
on a fuel argument; every iteration grows the list by one entry, so
fuel = n always suffices. -/
def padLoop (n : Nat) : Nat → List String → List String
  | 0, parts => parts
  | fuel + 1, parts =>
    if parts.length < n then
      padLoop n fuel (parts ++ [parts.getLast?.getD ""])
    else parts

def padTo (n : Nat) (parts : List String) : List String := padLoop n n parts

/-- Lines 572-578: pad, then truncate to exactly n chunks. -/
def reconcile (n : Nat) (parts : List String) : List String :=
  let padded := padTo n parts
  if padded.length > n then padded.take n else padded

def reconciledParts (text : String) (n : Nat) : List String :=
  reconcile n (cleanedParts text)

/- ## Reassembly (lines 581-612) -/

def xmlLangKey : String := "\x7bhttp://www.w3.org/XML/1998/namespace\x7dlang"

/-- Line 596: everything up to and including the last close brace of the
tag, or "" when the tag has none. -/
def nsOfTag (tag : String) : String :=
  if pyContains tag "\x7d" then
    String.mk ((tag.data.reverse.dropWhile (fun c => c ≠ '\x7d')).reverse)
  else ""

/-- Line 597: the tag for a synthesized target element. -/
def targetTagOf (srcTag : String) : String :=
  let ns := nsOfTag srcTag
  if ns ≠ "" then ns ++ "target" else "target"

/-- Lines 596-605: the synthesized target element. -/
def newTargetElem (src : XmlElem) (targetLanguage : String) (t : String) :
    XmlElem :=
  .mk (targetTagOf src.tag)
    (if (src.attrs.lookup xmlLangKey).isSome then [(xmlLangKey, targetLanguage)]
     else [])
    (some t) [] none

/-- Lines 581-612 for one item and its chunk: strip the chunk, skip it
when empty, otherwise write it back according to the element type. -/
def applyItem (targetLanguage : String) (r : XmlElem) (item : TransItem)
    (part : String) : XmlElem :=
  let t := pyStrip part
  if t = "" then r
  else if item.elemType = "trans-unit" then
    match item.targetPath with
    | some tp => setTextAt r tp t
    | none =>
      match item.sourcePath.bind (getAt? r) with
      | some src => appendChildAt r item.elemPath (newTargetElem src targetLanguage t)
      | none => r
  else if item.elemType = "direct" then setTextAt r item.elemPath t
  else r

/-- Lines 548-612: split, clean, reconcile, and write every chunk back. -/
def translateTree (root : XmlElem) (response : String)
    (targetLanguage : String) : XmlElem :=
  let items := translationItems root
  let parts := reconciledParts response items.length
  (items.zip parts).foldl
    (fun acc ip => applyItem targetLanguage acc ip.1 ip.2) root

/-- Lines 445-641, with the two external effects as parameters: parsing
the raw bytes (ET.fromstring, None models a parse error being raised)
and the completion call (translate_with_anthropic, None models a raised
transport/status/envelope error).  Serialization (lines 614-626) is kept
abstract.  Either raised error reaches the except-handler of lines
634-641, which returns the original content. -/
def translate_xliff_with_anthropic (xliffContent : String)
    (parseResult : Option XmlElem) (serviceResult : Option String)
    (targetLanguage : String) (serialize : XmlElem → String) : String :=
  match parseResult with
  | none => xliffContent
  | some root =>
    if (translationItems root).isEmpty then serialize root
    else
      match serviceResult with
      | none => xliffContent
      | some response => serialize (translateTree root response targetLanguage)

/- ## Helper lemmas: strings and splitting -/

theorem string_mk_data (s : String) : String.mk s.data = s := rfl

theorem headOccToFull {l1 l2 : List Char} (h : l1 <+: l2) : l1 <:+: l2 := by
  obtain ⟨t, ht⟩ := h
  exact ⟨[], t, by rw [List.nil_append, ht]⟩

theorem occInTail {l1 l2 : List Char} (a : Char) (h : l1 <:+: l2) :
    l1 <:+: a :: l2 := by
  obtain ⟨s, t, hst⟩ := h
  exact ⟨a :: s, t, by rw [← hst]; rfl⟩

theorem headMatchToOcc {l1 l2 : List Char} (h : l1.isPrefixOf l2 = true) :
    l1 <+: l2 := List.isPrefixOf_iff_prefix.mp h

theorem splitOnFuelNoOcc (s0 : Char) (srest : List Char) :
    ∀ (fuel : Nat) (l : List Char), l.length ≤ fuel →
      ¬ (s0 :: srest) <:+: l → splitOnFuel s0 srest fuel l = [l] := by
  intro fuel
  induction fuel with
  | zero =>
    intro l hl _
    have : l = [] := List.length_eq_zero.mp (Nat.le_zero.mp hl)
    subst this
    rfl
  | succ k ih =>
    intro l hl h
    match l with
    | [] => rfl
    | c :: cs =>
      have hpre : (s0 :: srest).isPrefixOf (c :: cs) = false := by
        rw [Bool.eq_false_iff]
        intro htrue
        exact h (headOccToFull (headMatchToOcc htrue))
      have hcs : splitOnFuel s0 srest k cs = [cs] := by
        refine ih cs (by simp at hl; omega) (fun hin => h ?_)
        exact occInTail c hin
      rw [splitOnFuel, hpre]
      simp only [Bool.false_eq_true, if_false, hcs]

theorem pySplit_no_sep (s sep : String) (hne : sep.data ≠ [])
    (h : pyContains s sep = false) : pySplit s sep = [s] := by
  cases hsep : sep.data with
  | nil => exact absurd hsep hne
  | cons s0 srest =>
    have hinf : ¬ (s0 :: srest) <:+: s.data := by
      have := of_decide_eq_false (by rw [← h]; unfold pyContains; rw [hsep])
      exact this
    unfold pySplit
    rw [hsep]
    show (splitOnFuel s0 srest s.data.length s.data).map String.mk = [s]
    rw [splitOnFuelNoOcc s0 srest s.data.length s.data le_rfl hinf]
    simp [string_mk_data]

/- ## Helper lemmas: padding and reconciliation -/

theorem padLoop_of_ge (n fuel : Nat) (parts : List String)
    (h : n ≤ parts.length) : padLoop n fuel parts = parts := by
  cases fuel with
  | zero => rfl
  | succ k => rw [padLoop, if_neg (Nat.not_lt.mpr h)]

theorem padLoop_spec (n : Nat) :
    ∀ (fuel : Nat) (parts : List String), parts.length < n →
      n - parts.length ≤ fuel →
      padLoop n fuel parts =
        parts ++ List.replicate (n - parts.length) (parts.getLast?.getD "") := by
  intro fuel
  induction fuel with
  | zero => intro parts h1 h2; omega
  | succ k ih =>
    intro parts h1 h2
    rw [padLoop, if_pos h1]
    by_cases h3 : (parts ++ [parts.getLast?.getD ""]).length < n
    · rw [ih (parts ++ [parts.getLast?.getD ""]) h3 (by simp; omega)]
      rw [List.getLast?_concat]
      simp only [Option.getD_some, List.length_append, List.length_cons,
        List.length_nil, List.append_assoc, List.singleton_append]
      have hr : n - parts.length = (n - (parts.length + 1)) + 1 := by omega
      rw [hr, List.replicate_succ]
    · have hlen : n = parts.length + 1 := by simp at h3; omega
      rw [padLoop_of_ge n k _ (by simp; omega)]
      have hr : n - parts.length = 1 := by omega
      rw [hr]
      simp

theorem reconcile_of_lt (n : Nat) (parts : List String)
    (h : parts.length < n) :
    reconcile n parts =
      parts ++ List.replicate (n - parts.length) (parts.getLast?.getD "") := by
  unfold reconcile padTo
  rw [padLoop_spec n n parts h (by omega)]
  rw [if_neg (by simp; omega)]

theorem reconcile_of_ge (n : Nat) (parts : List String)
    (h : n ≤ parts.length) : reconcile n parts = parts.take n := by
  unfold reconcile padTo
  rw [padLoop_of_ge n n parts h]
  by_cases h2 : parts.length > n
  · rw [if_pos h2]
  · rw [if_neg h2]
    have : n = parts.length := by omega
    subst this
    exact (List.take_length parts).symm

theorem reconcile_length (n : Nat) (parts : List String) :
    (reconcile n parts).length = n := by
  by_cases h : parts.length < n
  · rw [reconcile_of_lt n parts h]
    simp
    omega
  · rw [reconcile_of_ge n parts (by omega)]
    simp
    omega

/-- find? returns the entry at the first position whose test is true. -/
theorem find_eq_get_of_first {α : Type} (p : α → Bool) :
    ∀ (l : List α) (i : Nat) (hi : i < l.length),
      p (l.get ⟨i, hi⟩) = true →
      (∀ j (hj : j < i), p (l.get ⟨j, Nat.lt_trans hj hi⟩) = false) →
      l.find? p = some (l.get ⟨i, hi⟩) := by
  intro l
  induction l with
  | nil => intro i hi; simp at hi
  | cons a as ih =>
    intro i hi hp hprev
    cases i with
    | zero =>
      rw [List.find?_cons_of_pos]
      · rfl
      · exact hp
    | succ k =>
      have ha : p a = false := hprev 0 (Nat.succ_pos k)
      rw [List.find?_cons_of_neg _ (by simp [ha])]
      have hk : k < as.length := by simpa using hi
      have hp2 : p (as.get ⟨k, hk⟩) = true := by simpa using hp
      have hprev2 : ∀ j (hj : j < k), p (as.get ⟨j, Nat.lt_trans hj hk⟩) = false := by
        intro j hj
        have := hprev (j + 1) (by omega)
        simpa using this
      have := ih k hk hp2 hprev2
      rw [this]
      simp

/- ## Concrete documents and responses used by claims C1, C8, C9 and
witnesses.  doc2tu is the end-to-end example document of the spec:
two translation-units with sources "Hello" and "World", no targets. -/

def srcHello : XmlElem :=
  .mk "source" [(xmlLangKey, "en")] (some "Hello") [] none

def srcWorld : XmlElem :=
  .mk "source" [(xmlLangKey, "en")] (some "World") [] none

def doc2tu : XmlElem :=
  .mk "xliff" [] none
    [.mk "trans-unit" [("id", "1")] none [srcHello] none,
     .mk "trans-unit" [("id", "2")] none [srcWorld] none] none

def respSegments : String := "Segment 0:\nBonjour\n\nSegment 1:\nMonde"

def respMarkers : String :=
  "[ITEM-0][TRANS-UNIT] Bonjour\n---ITEM---\n[ITEM-1][TRANS-UNIT] Monde"

/- ## Claims -/

/-- C1: when the input fails to parse as well-formed markup, or when the
text-completion call for a non-empty batch fails, the function returns
the original input content unchanged, never a partially translated
document. -/
theorem claim_C1 (xliffContent : String) (parseResult : Option XmlElem)
    (serviceResult : Option String) (targetLanguage : String)
    (serialize : XmlElem → String) :
    (parseResult = none →
      translate_xliff_with_anthropic xliffContent parseResult serviceResult
        targetLanguage serialize = xliffContent) ∧
    (∀ root, parseResult = some root → translationItems root ≠ [] →
      serviceResult = none →
      translate_xliff_with_anthropic xliffContent parseResult serviceResult
        targetLanguage serialize = xliffContent) := by
  constructor
  · intro h
    subst h
    rfl
  · intro root h hne hs
    subst h
    subst hs
    have hred : translate_xliff_with_anthropic xliffContent (some root) none
        targetLanguage serialize =
        if (translationItems root).isEmpty = true then serialize root
        else xliffContent := rfl
    rw [hred, if_neg (by simpa [List.isEmpty_iff] using hne)]

theorem claim_C1_witness :
    translate_xliff_with_anthropic "original" none (some "resp") "fr"
      (fun _ => "") = "original" ∧
    translate_xliff_with_anthropic "original" (some doc2tu) none "fr"
      (fun _ => "") = "original" :=
  ⟨(claim_C1 "original" none (some "resp") "fr" (fun _ => "")).1 rfl,
   (claim_C1 "original" (some doc2tu) none "fr" (fun _ => "")).2 doc2tu rfl
     (by decide) rfl⟩

/-- C3: length reconciliation is total and yields exactly N chunks: a
short list is padded by repeating the last chunk (the empty string when
no chunk exists), a long list is truncated to its first N entries, each
position keeping its own chunk. -/
theorem claim_C3 (parts : List String) (n : Nat) :
    (reconcile n parts).length = n ∧
    (parts.length < n →
      reconcile n parts =
        parts ++ List.replicate (n - parts.length) (parts.getLast?.getD "")) ∧
    (n ≤ parts.length →
      reconcile n parts = parts.take n ∧
      ∀ i, i < n → (reconcile n parts).get? i = parts.get? i) := by
  refine ⟨reconcile_length n parts, fun h => reconcile_of_lt n parts h,
    fun h => ⟨reconcile_of_ge n parts h, fun i hi => ?_⟩⟩
  rw [reconcile_of_ge n parts h]
  exact List.get?_take hi

theorem claim_C3_witness :
    (reconcile 3 ["a"]).length = 3 ∧ reconcile 3 ["a"] = ["a", "a", "a"] ∧
    reconcile 3 [] = ["", "", ""] ∧ reconcile 1 ["x", "y"] = ["x"] := by
  refine ⟨(claim_C3 ["a"] 3).1, ?_, ?_, ?_⟩
  · rw [(claim_C3 ["a"] 3).2.1 (by decide)]
    decide
  · rw [(claim_C3 [] 3).2.1 (by decide)]
    decide
  · rw [((claim_C3 ["x", "y"] 1).2.2 (by decide)).1]
    decide

/-- C6: a chunk that is empty after trimming leaves the tree untouched:
the write-back step for that segment is the identity, so no target is
overwritten or created and no direct text is modified. -/
theorem claim_C6 (targetLanguage : String) (r : XmlElem) (item : TransItem)
    (part : String) (h : pyStrip part = "") :
    applyItem targetLanguage r item part = r := by
  simp [applyItem, h]

theorem claim_C6_witness :
    applyItem "fr" doc2tu default "  \n " = doc2tu :=
  claim_C6 "fr" doc2tu default "  \n " (by decide)

/-- C9: evaluation at the failing input.  The marker-stripping step does
not remove the [ITEM-i][TRANS-UNIT] prefixes that the batch itself
generates (the regex word class \w cannot match the hyphen inside
TRANS-UNIT), so the two translations keep their bracket markers instead
of becoming "Bonjour" and "Monde"; the third conjunct shows the request
side emits exactly this marker shape. -/
theorem claim_C9 :
    cleanedParts respMarkers =
      ["[ITEM-0][TRANS-UNIT] Bonjour", "[ITEM-1][TRANS-UNIT] Monde"] ∧
    cleanedParts respMarkers ≠ ["Bonjour", "Monde"] ∧
    buildCombinedText (translationItems doc2tu) =
      "[ITEM-0][TRANS-UNIT] Hello\n---ITEM---\n[ITEM-1][TRANS-UNIT] World" :=
  ⟨by decide, by decide, by decide⟩

/-- The regex does strip a marker whose type label contains no hyphen,
confirming that the failure exhibited by claim C9 is caused by the
hyphen of TRANS-UNIT alone. -/
theorem stripMarkers_direct_label :
    stripMarkersStr "[ITEM-0][DIRECT] Bonjour" = "Bonjour" := by decide

/-- C10: when no candidate pattern occurs in the response, the split
yields the single whole response and the padding rule assigns its
cleaned (trimmed, marker-stripped) form to every one of the n
segments. -/
theorem claim_C10 (response : String) (n : Nat) (h2 : 2 ≤ n)
    (hno : ∀ p ∈ possiblePatterns, pyContains response p = false) :
    splitParts response = [response] ∧
    reconciledParts response n =
      List.replicate n (stripMarkersStr (pyStrip response)) := by
  have hdelim : pyContains response itemDelimiter = false :=
    hno itemDelimiter (by decide)
  have hchoose : chooseSplitPattern response = itemDelimiter := by
    unfold chooseSplitPattern
    rw [if_neg (by simp [hdelim]),
      List.find?_eq_none.mpr (fun p hp => by simp [hno p hp])]
  have hsplit : splitParts response = [response] := by
    unfold splitParts
    rw [hchoose]
    exact pySplit_no_sep response itemDelimiter (by decide) hdelim
  refine ⟨hsplit, ?_⟩
  unfold reconciledParts cleanedParts
  rw [hsplit]
  show reconcile n [cleanPart response] = _
  obtain ⟨m, rfl⟩ : ∃ m, n = m + 2 := ⟨n - 2, by omega⟩
  rw [reconcile_of_lt _ _ (by simp)]
  simp [cleanPart, List.replicate_succ]

theorem claim_C10_witness :
    splitParts "Hello world" = ["Hello world"] ∧
    reconciledParts "Hello world" 2 = ["Hello world", "Hello world"] := by
  have h := claim_C10 "Hello world" 2 (by decide) (by decide)
  refine ⟨h.1, ?_⟩
  rw [h.2]
  decide

/-- C4: the splitter first tries the exact request delimiter; when that
does not occur, the ordered fallback list is tried and the first pattern
that occurs in the response is chosen; the response is split by the
chosen pattern. -/
theorem claim_C4 (text : String) :
    splitParts text = pySplit text (chooseSplitPattern text) ∧
    (pyContains text itemDelimiter = true →
      chooseSplitPattern text = itemDelimiter) ∧
    (pyContains text itemDelimiter = false →
      ∀ i (hi : i < possiblePatterns.length),
        pyContains text (possiblePatterns.get ⟨i, hi⟩) = true →
        (∀ j (hj : j < i),
          pyContains text (possiblePatterns.get ⟨j, Nat.lt_trans hj hi⟩) = false) →
        chooseSplitPattern text = possiblePatterns.get ⟨i, hi⟩) := by
  refine ⟨rfl, fun h => ?_, fun h i hi hp hprev => ?_⟩
  · unfold chooseSplitPattern
    rw [if_pos h]
  · unfold chooseSplitPattern
    rw [if_neg (by simp [h]),
      find_eq_get_of_first (fun p => pyContains text p) possiblePatterns i hi hp hprev]

theorem claim_C4_witness :
    chooseSplitPattern respSegments = "\n\n" ∧
    splitParts respSegments = ["Segment 0:\nBonjour", "Segment 1:\nMonde"] := by
  constructor
  · have h := (claim_C4 respSegments).2.2 (by decide) 6 (by decide) (by decide)
      (fun j hj => by
        interval_cases j
        · exact (by decide : pyContains respSegments "\n---ITEM---\n" = false)
        · exact (by decide : pyContains respSegments "\n- - -ITEM- - -\n" = false)
        · exact (by decide : pyContains respSegments "\n--ITEM--\n" = false)
        · exact (by decide : pyContains respSegments "\n---\n" = false)
        · exact (by decide : pyContains respSegments "\n- - -\n" = false)
        · exact (by decide : pyContains respSegments "\n--\n" = false))
    exact h.trans (by rfl)
  · decide

/-- C8 counterexample: on the spec's end-to-end example the synthesized
targets do not contain "Bonjour" and "Monde"; the code keeps each whole
delimiter-separated chunk, "Segment N:" label included. -/
theorem claim_C8_counterexample :
    (getAt? (translateTree doc2tu respSegments "fr") [0, 1]).map XmlElem.text
        = some (some "Segment 0:\nBonjour") ∧
    (getAt? (translateTree doc2tu respSegments "fr") [1, 1]).map XmlElem.text
        = some (some "Segment 1:\nMonde") ∧
    ¬ ((getAt? (translateTree doc2tu respSegments "fr") [0, 1]).map
        XmlElem.text = some (some "Bonjour")) :=
  ⟨by decide, by decide, by decide⟩

/-- C8 amended: on the two-unit document with sources "Hello"/"World",
no targets, and the completion response "Segment 0:\nBonjour\n\nSegment
1:\nMonde", each translation-unit gains one newly created target child
whose text is the full corresponding chunk ("Segment 0:\nBonjour" and
"Segment 1:\nMonde" -- the "Segment N:" labels are not stripped),
attributed with the target language; sources, ids and all surrounding
structure are unchanged. -/
theorem claim_C8 :
    translateTree doc2tu respSegments "fr" =
      .mk "xliff" [] none
        [.mk "trans-unit" [("id", "1")] none
           [srcHello,
            .mk "target" [(xmlLangKey, "fr")] (some "Segment 0:\nBonjour")
              [] none] none,
         .mk "trans-unit" [("id", "2")] none
           [srcWorld,
            .mk "target" [(xmlLangKey, "fr")] (some "Segment 1:\nMonde")
              [] none] none] none := by decide

/- ## Local views of tree nodes and frame lemmas for the two update
operations.  A NodeView records everything about one node except the
contents of its subtrees, so effects of updates can be localized. -/

structure NodeView : Type where
  tag : String
  attrs : List (String × String)
  text : Option String
  tail : Option String
  kidsCount : Nat
deriving DecidableEq

def viewAt (r : XmlElem) (q : XmlPath) : Option NodeView :=
  (getAt? r q).map
    (fun e => ⟨e.tag, e.attrs, e.text, e.tail, e.children.length⟩)

def tagAt? (r : XmlElem) (q : XmlPath) : Option String :=
  (viewAt r q).map NodeView.tag

def attrsAt? (r : XmlElem) (q : XmlPath) : Option (List (String × String)) :=
  (viewAt r q).map NodeView.attrs

def textAt? (r : XmlElem) (q : XmlPath) : Option (Option String) :=
  (viewAt r q).map NodeView.text

def tailAt? (r : XmlElem) (q : XmlPath) : Option (Option String) :=
  (viewAt r q).map NodeView.tail

def childCountAt? (r : XmlElem) (q : XmlPath) : Option Nat :=
  (viewAt r q).map NodeView.kidsCount

def validPath (r : XmlElem) (q : XmlPath) : Prop := (getAt? r q).isSome = true

theorem updateNth_length (f : XmlElem → XmlElem) :
    ∀ (l : List XmlElem) (i : Nat), (updateNth f l i).length = l.length := by
  intro l
  induction l with
  | nil => intro i; rfl
  | cons x xs ih =>
    intro i
    cases i with
    | zero => rfl
    | succ k =>
      show (updateNth f xs k).length + 1 = xs.length + 1
      rw [ih k]

theorem updateNth_get_ne (f : XmlElem → XmlElem) :
    ∀ (l : List XmlElem) (i j : Nat), j ≠ i →
      (updateNth f l i).get? j = l.get? j := by
  intro l
  induction l with
  | nil => intro i j _; rfl
  | cons x xs ih =>
    intro i j hne
    cases i with
    | zero =>
      cases j with
      | zero => exact absurd rfl hne
      | succ m => rfl
    | succ k =>
      cases j with
      | zero => rfl
      | succ m =>
        show (updateNth f xs k).get? m = xs.get? m
        exact ih k m (fun h => hne (by rw [h]))

theorem updateNth_get_eq (f : XmlElem → XmlElem) :
    ∀ (l : List XmlElem) (i : Nat),
      (updateNth f l i).get? i = (l.get? i).map f := by
  intro l
  induction l with
  | nil => intro i; rfl
  | cons x xs ih =>
    intro i
    cases i with
    | zero => rfl
    | succ k =>
      show (updateNth f xs k).get? k = (xs.get? k).map f
      exact ih k

theorem tag_mk (t : String) (a : List (String × String)) (x : Option String)
    (ch : List XmlElem) (tl : Option String) :
    (XmlElem.mk t a x ch tl).tag = t := rfl

theorem attrs_mk (t : String) (a : List (String × String)) (x : Option String)
    (ch : List XmlElem) (tl : Option String) :
    (XmlElem.mk t a x ch tl).attrs = a := rfl

theorem text_mk (t : String) (a : List (String × String)) (x : Option String)
    (ch : List XmlElem) (tl : Option String) :
    (XmlElem.mk t a x ch tl).text = x := rfl

theorem children_mk (t : String) (a : List (String × String))
    (x : Option String) (ch : List XmlElem) (tl : Option String) :
    (XmlElem.mk t a x ch tl).children = ch := rfl

theorem tail_mk (t : String) (a : List (String × String)) (x : Option String)
    (ch : List XmlElem) (tl : Option String) :
    (XmlElem.mk t a x ch tl).tail = tl := rfl

theorem viewAt_nil (e : XmlElem) :
    viewAt e [] =
      some ⟨e.tag, e.attrs, e.text, e.tail, e.children.length⟩ := rfl

theorem viewAt_cons (e : XmlElem) (j : Nat) (q : XmlPath) :
    viewAt e (j :: q) =
      match e.children.get? j with
      | none => none
      | some c => viewAt c q := by
  show (match e.children.get? j with
      | none => none
      | some c => getAt? c q).map
      (fun x : XmlElem =>
        (⟨x.tag, x.attrs, x.text, x.tail, x.children.length⟩ : NodeView)) =
    match e.children.get? j with
    | none => none
    | some c => viewAt c q
  cases e.children.get? j with
  | none => rfl
  | some c => rfl

theorem setTextAt_nil (r : XmlElem) (t : String) :
    setTextAt r [] t = .mk r.tag r.attrs (some t) r.children r.tail := rfl

theorem setTextAt_cons (r : XmlElem) (i : Nat) (p : XmlPath) (t : String) :
    setTextAt r (i :: p) t =
      .mk r.tag r.attrs r.text
        (updateNth (fun c => setTextAt c p t) r.children i) r.tail := rfl

theorem appendChildAt_nil (r : XmlElem) (c : XmlElem) :
    appendChildAt r [] c =
      .mk r.tag r.attrs r.text (r.children ++ [c]) r.tail := rfl

theorem appendChildAt_cons (r : XmlElem) (i : Nat) (p : XmlPath)
    (c : XmlElem) :
    appendChildAt r (i :: p) c =
      .mk r.tag r.attrs r.text
        (updateNth (fun d => appendChildAt d p c) r.children i) r.tail := rfl

/-- Frame lemma for setTextAt: every node except the addressed one keeps
its whole local view; the addressed one changes only its text field. -/
theorem viewAt_setTextAt (t : String) :
    ∀ (p : XmlPath) (r : XmlElem) (q : XmlPath),
      (q ≠ p → viewAt (setTextAt r p t) q = viewAt r q) ∧
      viewAt (setTextAt r p t) p =
        (viewAt r p).map
          (fun v => ⟨v.tag, v.attrs, some t, v.tail, v.kidsCount⟩) := by
  intro p
  induction p with
  | nil =>
    intro r q
    refine ⟨fun hq => ?_, rfl⟩
    match q, hq with
    | j :: q', _ =>
      rw [setTextAt_nil, viewAt_cons, viewAt_cons]
      simp only [children_mk]
  | cons i p' ih =>
    intro r q
    constructor
    · intro hq
      match q with
      | [] =>
        rw [setTextAt_cons, viewAt_nil, viewAt_nil, tag_mk, attrs_mk, text_mk,
          tail_mk, children_mk, updateNth_length]
      | j :: q' =>
        rw [setTextAt_cons, viewAt_cons, viewAt_cons]
        simp only [children_mk]
        by_cases hji : j = i
        · subst hji
          rw [updateNth_get_eq]
          cases hc : r.children.get? j with
          | none => rfl
          | some c => exact (ih c q').1 (fun h => hq (by rw [h]))
        · rw [updateNth_get_ne _ r.children i j hji]
    · rw [setTextAt_cons, viewAt_cons, viewAt_cons]
      simp only [children_mk]
      rw [updateNth_get_eq]
      cases hc : r.children.get? i with
      | none => rfl
      | some c => exact (ih c p').2

theorem getAt?_cons (e : XmlElem) (j : Nat) (q : XmlPath) :
    getAt? e (j :: q) =
      match e.children.get? j with
      | none => none
      | some d => getAt? d q := rfl

/-- Frame lemma for appendChildAt: every path valid in the original tree
keeps its tag, attrs, text and tail; the child count changes only at the
addressed node, which gains exactly one child. -/
theorem viewAt_appendChildAt (c : XmlElem) :
    ∀ (p : XmlPath) (r : XmlElem) (q : XmlPath),
      (validPath r q → q ≠ p →
        viewAt (appendChildAt r p c) q = viewAt r q) ∧
      viewAt (appendChildAt r p c) p =
        (viewAt r p).map
          (fun v => ⟨v.tag, v.attrs, v.text, v.tail, v.kidsCount + 1⟩) := by
  intro p
  induction p with
  | nil =>
    intro r q
    constructor
    · intro hv hq
      match q, hq with
      | j :: q', _ =>
        unfold validPath at hv
        rw [getAt?_cons] at hv
        cases hd : r.children.get? j with
        | none => rw [hd] at hv; simp at hv
        | some d =>
          have hlt : j < r.children.length := by
            by_contra hge
            rw [List.get?_eq_none.mpr (by omega)] at hd
            exact absurd hd (by simp)
          rw [appendChildAt_nil, viewAt_cons, viewAt_cons]
          simp only [children_mk]
          rw [List.get?_append hlt]
    · rw [appendChildAt_nil, viewAt_nil, viewAt_nil, tag_mk, attrs_mk,
        text_mk, tail_mk, children_mk]
      simp
  | cons i p' ih =>
    intro r q
    constructor
    · intro hv hq
      match q with
      | [] =>
        rw [appendChildAt_cons, viewAt_nil, viewAt_nil, tag_mk, attrs_mk,
          text_mk, tail_mk, children_mk, updateNth_length]
      | j :: q' =>
        rw [appendChildAt_cons, viewAt_cons, viewAt_cons]
        simp only [children_mk]
        by_cases hji : j = i
        · subst hji
          rw [updateNth_get_eq]
          cases hd : r.children.get? j with
          | none => rfl
          | some d =>
            have hv' : validPath d q' := by
              unfold validPath at hv ⊢
              rw [getAt?_cons, hd] at hv
              exact hv
            exact (ih d q').1 hv' (fun h => hq (by rw [h]))
        · rw [updateNth_get_ne _ r.children i j hji]
    · rw [appendChildAt_cons, viewAt_cons, viewAt_cons]
      simp only [children_mk]
      rw [updateNth_get_eq]
      cases hd : r.children.get? i with
      | none => rfl
      | some d => exact (ih d p').2

/-- The appended child is reachable at the next free index of the
addressed node. -/
theorem getAt?_appendChildAt_new (c : XmlElem) :
    ∀ (p : XmlPath) (r : XmlElem) (e : XmlElem), getAt? r p = some e →
      getAt? (appendChildAt r p c) (p ++ [e.children.length]) = some c := by
  intro p
  induction p with
  | nil =>
    intro r e he
    have her : e = r := by injection he with h; exact h.symm
    subst her
    rw [List.nil_append, appendChildAt_nil, getAt?_cons, children_mk,
      List.get?_concat_length]
    rfl
  | cons i p' ih =>
    intro r e he
    rw [getAt?_cons] at he
    cases hd : r.children.get? i with
    | none => rw [hd] at he; exact absurd he (by simp)
    | some d =>
      rw [hd] at he
      show getAt? (appendChildAt r (i :: p') c) (i :: (p' ++ [e.children.length]))
        = some c
      rw [appendChildAt_cons, getAt?_cons, children_mk, updateNth_get_eq, hd]
      exact ih d e he

/-- With a childless new element, every path valid after the append was
either already valid or is the single new slot under the addressed
node. -/
theorem validPath_appendChildAt (c : XmlElem) (hc : c.children = []) :
    ∀ (p : XmlPath) (r : XmlElem) (q : XmlPath),
      validPath (appendChildAt r p c) q →
      validPath r q ∨
        ∃ e, getAt? r p = some e ∧ q = p ++ [e.children.length] := by
  intro p
  induction p with
  | nil =>
    intro r q hv
    match q with
    | [] => exact Or.inl rfl
    | j :: q' =>
      unfold validPath at hv
      rw [appendChildAt_nil, getAt?_cons, children_mk] at hv
      cases hj : (r.children ++ [c]).get? j with
      | none => rw [hj] at hv; simp at hv
      | some d =>
        rw [hj] at hv
        by_cases hlt : j < r.children.length
        · left
          unfold validPath
          rw [getAt?_cons]
          rw [List.get?_append hlt] at hj
          rw [hj]
          exact hv
        · by_cases heq : j = r.children.length
          · subst heq
            rw [List.get?_concat_length] at hj
            have hdc : d = c := by injection hj with h; exact h.symm
            subst hdc
            match q' with
            | [] => exact Or.inr ⟨r, rfl, by rw [List.nil_append]⟩
            | k :: q'' =>
              exfalso
              have hv2 : (getAt? d (k :: q'')).isSome = true := hv
              rw [getAt?_cons, hc] at hv2
              simp at hv2
          · have : (r.children ++ [c]).get? j = none := by
              rw [List.get?_eq_none]
              simp
              omega
            rw [this] at hj
            exact absurd hj (by simp)
  | cons i p' ih =>
    intro r q hv
    match q with
    | [] => exact Or.inl rfl
    | j :: q' =>
      unfold validPath at hv
      rw [appendChildAt_cons, getAt?_cons, children_mk] at hv
      by_cases hji : j = i
      · subst hji
        rw [updateNth_get_eq] at hv
        cases hd : r.children.get? j with
        | none => rw [hd] at hv; simp at hv
        | some d =>
          rw [hd] at hv
          cases ih d q' hv with
          | inl h =>
            left
            unfold validPath
            rw [getAt?_cons, hd]
            exact h
          | inr h =>
            obtain ⟨e, he, hq⟩ := h
            right
            refine ⟨e, ?_, ?_⟩
            · rw [getAt?_cons, hd]
              exact he
            · rw [hq]
              rfl
      · rw [updateNth_get_ne _ r.children i j hji] at hv
        left
        unfold validPath
        rw [getAt?_cons]
        cases hd : r.children.get? j with
        | none => rw [hd] at hv; simp at hv
        | some d =>
          rw [hd] at hv
          exact hv

theorem validPath_viewAt (r : XmlElem) (q : XmlPath) :
    validPath r q ↔ (viewAt r q).isSome = true := by
  unfold validPath viewAt
  cases getAt? r q <;> simp

theorem validPath_setTextAt (t : String) (p : XmlPath) (r : XmlElem)
    (q : XmlPath) : validPath (setTextAt r p t) q ↔ validPath r q := by
  rw [validPath_viewAt, validPath_viewAt]
  by_cases hq : q = p
  · subst hq
    rw [(viewAt_setTextAt t q r q).2]
    cases viewAt r q <;> simp
  · rw [(viewAt_setTextAt t p r q).1 hq]

theorem validPath_appendChildAt_mono (c : XmlElem) (p : XmlPath)
    (r : XmlElem) (q : XmlPath) (hv : validPath r q) :
    validPath (appendChildAt r p c) q := by
  by_cases hq : q = p
  · subst hq
    rw [validPath_viewAt] at hv ⊢
    rw [(viewAt_appendChildAt c q r q).2]
    obtain ⟨v, hvv⟩ := Option.isSome_iff_exists.mp hv
    rw [hvv]
    simp
  · rw [validPath_viewAt] at hv ⊢
    rw [(viewAt_appendChildAt c p r q).1 (by rw [validPath_viewAt]; exact hv) hq]
    exact hv

theorem targetTagOf_eq (srcTag : String) :
    targetTagOf srcTag = nsOfTag srcTag ++ "target" := by
  show (if nsOfTag srcTag ≠ "" then nsOfTag srcTag ++ "target" else "target")
    = nsOfTag srcTag ++ "target"
  by_cases h : nsOfTag srcTag = ""
  · rw [h]
    decide
  · rw [if_pos h]

theorem pyEndsWith_append (a b : String) : pyEndsWith (a ++ b) b = true := by
  unfold pyEndsWith
  exact decide_eq_true
    (by rw [String.data_append]; exact List.suffix_append a.data b.data)

/-- C7: for a container-pair segment with a non-empty trimmed chunk: an
existing target child is overwritten in place; otherwise a new target
element is appended to the translation-unit, carrying the source
element's namespace on its tag, the trimmed translation as its text, and
an xml:lang attribute set to the target language exactly when the source
child carries one. -/
theorem claim_C7 (targetLanguage : String) (r : XmlElem) (item : TransItem)
    (part : String) (hty : item.elemType = "trans-unit")
    (hne : pyStrip part ≠ "") :
    (∀ tp, item.targetPath = some tp →
      applyItem targetLanguage r item part = setTextAt r tp (pyStrip part) ∧
      (validPath r tp →
        textAt? (applyItem targetLanguage r item part) tp =
          some (some (pyStrip part)))) ∧
    (item.targetPath = none →
      ∀ sp src, item.sourcePath = some sp → getAt? r sp = some src →
        applyItem targetLanguage r item part =
          appendChildAt r item.elemPath
            (newTargetElem src targetLanguage (pyStrip part)) ∧
        (newTargetElem src targetLanguage (pyStrip part)).tag =
          nsOfTag src.tag ++ "target" ∧
        pyEndsWith (newTargetElem src targetLanguage (pyStrip part)).tag
          "target" = true ∧
        (newTargetElem src targetLanguage (pyStrip part)).text =
          some (pyStrip part) ∧
        (newTargetElem src targetLanguage (pyStrip part)).attrs =
          (if (src.attrs.lookup xmlLangKey).isSome then
            [(xmlLangKey, targetLanguage)] else []) ∧
        (∀ e, getAt? r item.elemPath = some e →
          getAt? (applyItem targetLanguage r item part)
            (item.elemPath ++ [e.children.length]) =
            some (newTargetElem src targetLanguage (pyStrip part)))) := by
  constructor
  · intro tp htp
    have happ : applyItem targetLanguage r item part =
        setTextAt r tp (pyStrip part) := by
      simp [applyItem, htp, hty, hne]
    refine ⟨happ, fun hv => ?_⟩
    rw [happ]
    unfold textAt?
    rw [(viewAt_setTextAt (pyStrip part) tp r tp).2]
    rw [validPath_viewAt] at hv
    obtain ⟨v, hvv⟩ := Option.isSome_iff_exists.mp hv
    rw [hvv]
    rfl
  · intro htp sp src hsp hsrc
    have happ : applyItem targetLanguage r item part =
        appendChildAt r item.elemPath
          (newTargetElem src targetLanguage (pyStrip part)) := by
      simp [applyItem, htp, hty, hne, hsp, hsrc]
    refine ⟨happ, targetTagOf_eq src.tag, ?_, rfl, rfl, fun e he => ?_⟩
    · rw [show (newTargetElem src targetLanguage (pyStrip part)).tag =
        targetTagOf src.tag from rfl, targetTagOf_eq]
      exact pyEndsWith_append (nsOfTag src.tag) "target"
    · rw [happ]
      exact getAt?_appendChildAt_new _ item.elemPath r e he

theorem claim_C7_witness :
    applyItem "fr" doc2tu ⟨0, "trans-unit", [0], some [0, 0], none, "Hello"⟩
        "Bonjour" =
      appendChildAt doc2tu [0]
        (newTargetElem srcHello "fr" (pyStrip "Bonjour")) :=
  ((claim_C7 "fr" doc2tu
    ⟨0, "trans-unit", [0], some [0, 0], none, "Hello"⟩ "Bonjour" rfl
    (by decide)).2 rfl [0, 0] srcHello rfl (by decide)).1

/- ## Dedup characterization for claim C5 -/

/-- Keep the first occurrence of every element, tracking what has been
seen; an independent formulation of first-occurrence deduplication. -/
def keepFirsts : List XmlPath → List XmlPath → List XmlPath
  | _, [] => []
  | seen, a :: as =>
    if a ∈ seen then keepFirsts seen as else a :: keepFirsts (a :: seen) as

theorem keepFirsts_sublist (seen : List XmlPath) :
    ∀ l : List XmlPath, List.Sublist (keepFirsts seen l) l := by
  intro l
  induction l generalizing seen with
  | nil => exact List.Sublist.refl []
  | cons a as ih =>
    rw [keepFirsts]
    split
    · exact (ih seen).cons a
    · exact (ih (a :: seen)).cons₂ a

theorem mem_keepFirsts (x : XmlPath) :
    ∀ (l seen : List XmlPath), x ∈ keepFirsts seen l ↔ x ∈ l ∧ x ∉ seen := by
  intro l
  induction l with
  | nil => intro seen; simp [keepFirsts]
  | cons a as ih =>
    intro seen
    rw [keepFirsts]
    split
    · rename_i ha
      rw [ih seen]
      constructor
      · rintro ⟨h1, h2⟩
        exact ⟨List.mem_cons_of_mem a h1, h2⟩
      · rintro ⟨h1, h2⟩
        rcases List.mem_cons.mp h1 with h | h
        · subst h
          exact absurd ha h2
        · exact ⟨h, h2⟩
    · rename_i ha
      simp only [List.mem_cons, ih (a :: seen)]
      constructor
      · rintro (h | ⟨h1, h2⟩)
        · subst h
          exact ⟨Or.inl rfl, ha⟩
        · exact ⟨Or.inr h1, fun hx => h2 (Or.inr hx)⟩
      · rintro ⟨h1 | h1, h2⟩
        · exact Or.inl h1
        · by_cases hxa : x = a
          · exact Or.inl hxa
          · exact Or.inr ⟨h1, fun hx => hx.elim hxa h2⟩

theorem keepFirsts_nodup : ∀ (l seen : List XmlPath),
    (keepFirsts seen l).Nodup := by
  intro l
  induction l with
  | nil => intro seen; exact List.nodup_nil
  | cons a as ih =>
    intro seen
    rw [keepFirsts]
    split
    · exact ih seen
    · refine List.nodup_cons.mpr ⟨fun hx => ?_, ih (a :: seen)⟩
      exact ((mem_keepFirsts a as (a :: seen)).mp hx).2 (List.mem_cons_self a _)

theorem combineDedup_eq_keepFirsts :
    ∀ (l acc seen : List XmlPath), (∀ x, x ∈ acc ↔ x ∈ seen) →
      l.foldl (fun acc e => if e ∈ acc then acc else acc ++ [e]) acc =
        acc ++ keepFirsts seen l := by
  intro l
  induction l with
  | nil => intro acc seen _; simp [keepFirsts]
  | cons a as ih =>
    intro acc seen hmem
    rw [List.foldl_cons, keepFirsts]
    by_cases ha : a ∈ acc
    · rw [if_pos ha, if_pos ((hmem a).mp ha)]
      exact ih acc seen hmem
    · rw [if_neg ha, if_neg (fun hs => ha ((hmem a).mpr hs))]
      rw [ih (acc ++ [a]) (a :: seen) (by
        intro x
        simp only [List.mem_append, List.mem_singleton, List.mem_cons, hmem x]
        tauto)]
      rw [List.append_assoc]
      rfl

theorem combineDedup_eq (l : List XmlPath) :
    combineDedup l = keepFirsts [] l := by
  unfold combineDedup
  have h := combineDedup_eq_keepFirsts l [] [] (fun x => Iff.rfl)
  rw [h, List.nil_append]

theorem combineDedup_nodup (l : List XmlPath) : (combineDedup l).Nodup := by
  rw [combineDedup_eq]
  exact keepFirsts_nodup l []

theorem combineDedup_sublist (l : List XmlPath) :
    List.Sublist (combineDedup l) l := by
  rw [combineDedup_eq]
  exact keepFirsts_sublist [] l

theorem mem_combineDedup (l : List XmlPath) (x : XmlPath) :
    x ∈ combineDedup l ↔ x ∈ l := by
  rw [combineDedup_eq, mem_keepFirsts]
  simp

/-- A filterMap whose hits agree with a map is a sublist of the map. -/
theorem filterMap_sublist_map {α β : Type} (f : α → Option β) (g : α → β) :
    ∀ l : List α, (∀ a ∈ l, ∀ b, f a = some b → b = g a) →
      List.Sublist (l.filterMap f) (l.map g) := by
  intro l
  induction l with
  | nil => intro _; simp
  | cons a as ih =>
    intro h
    rw [List.filterMap_cons, List.map_cons]
    cases hfa : f a with
    | none => exact (ih (fun x hx => h x (List.mem_cons_of_mem a hx))).cons (g a)
    | some b =>
      have hb : b = g a := h a (List.mem_cons_self a as) b hfa
      subst hb
      exact (ih (fun x hx => h x (List.mem_cons_of_mem a hx))).cons₂ (g a)

theorem mkItemCore_fields (root : XmlElem) (i : Nat) (p : XmlPath)
    (it : TransItem) (h : mkItemCore root i p = some it) :
    it.seqId = i ∧ it.elemPath = p ∧ it.sourceText ≠ "" := by
  simp only [mkItemCore] at h
  split at h
  · exact absurd h (by simp)
  · split at h
    · split at h
      · exact absurd h (by simp)
      · split at h
        · exact absurd h (by simp)
        · split at h
          · exact absurd h (by simp)
          · rename_i hne
            injection h with h
            subst h
            exact ⟨rfl, rfl, hne⟩
    · split at h
      · exact absurd h (by simp)
      · rename_i hne
        injection h with h
        subst h
        exact ⟨rfl, rfl, hne⟩

theorem translationItems_seqId_sorted (root : XmlElem) :
    List.Pairwise (· < ·) ((translationItems root).map TransItem.seqId) := by
  unfold translationItems
  rw [List.map_filterMap]
  have hsub : List.Sublist
      ((allElements root).enum.filterMap
        (fun ip => (mkItemCore root ip.1 ip.2).map TransItem.seqId))
      ((allElements root).enum.map Prod.fst) := by
    apply filterMap_sublist_map
    intro a _ b hb
    cases hmk : mkItemCore root a.1 a.2 with
    | none => rw [hmk] at hb; exact absurd hb (by simp)
    | some it =>
      rw [hmk] at hb
      simp only [Option.map_some'] at hb
      injection hb with hb
      rw [← hb]
      exact (mkItemCore_fields root a.1 a.2 it hmk).1
  rw [List.enum_map_fst] at hsub
  exact List.Pairwise.sublist hsub (List.pairwise_lt_range _)

theorem translationItems_elemPath_nodup (root : XmlElem) :
    ((translationItems root).map TransItem.elemPath).Nodup := by
  unfold translationItems
  rw [List.map_filterMap]
  have hsub : List.Sublist
      ((allElements root).enum.filterMap
        (fun ip => (mkItemCore root ip.1 ip.2).map TransItem.elemPath))
      ((allElements root).enum.map Prod.snd) := by
    apply filterMap_sublist_map
    intro a _ b hb
    cases hmk : mkItemCore root a.1 a.2 with
    | none => rw [hmk] at hb; exact absurd hb (by simp)
    | some it =>
      rw [hmk] at hb
      simp only [Option.map_some'] at hb
      injection hb with hb
      rw [← hb]
      exact (mkItemCore_fields root a.1 a.2 it hmk).2.1
  rw [List.enum_map_snd] at hsub
  refine List.Nodup.sublist hsub ?_
  unfold allElements
  exact combineDedup_nodup _

theorem translationItems_text_ne (root : XmlElem) :
    ∀ it ∈ translationItems root, it.sourceText ≠ "" := by
  intro it hit
  unfold translationItems at hit
  rw [List.mem_filterMap] at hit
  obtain ⟨ip, _, hmk⟩ := hit
  exact (mkItemCore_fields root ip.1 ip.2 it hmk).2.2

/-- C5: segment discovery combines the four passes in their fixed order,
de-duplicates by element identity keeping only the first occurrence of
each element while preserving order (which fixes the sequence-id order:
item ids are strictly increasing along the list), and excludes every
element whose extracted text is empty after trimming. -/
theorem claim_C5 (root : XmlElem) :
    allElements root =
      keepFirsts [] (transUnitPass root ++ headerPass root ++
        translatableAttrPass root ++ resnamePass root) ∧
    (allElements root).Nodup ∧
    List.Sublist (allElements root)
      (transUnitPass root ++ headerPass root ++ translatableAttrPass root ++
        resnamePass root) ∧
    (∀ p : XmlPath, p ∈ allElements root ↔
      p ∈ transUnitPass root ++ headerPass root ++ translatableAttrPass root ++
        resnamePass root) ∧
    (∀ it ∈ translationItems root, it.sourceText ≠ "") ∧
    List.Pairwise (· < ·) ((translationItems root).map TransItem.seqId) := by
  refine ⟨?_, ?_, ?_, ?_, translationItems_text_ne root,
    translationItems_seqId_sorted root⟩
  · unfold allElements
    exact combineDedup_eq _
  · unfold allElements
    exact combineDedup_nodup _
  · unfold allElements
    exact combineDedup_sublist _
  · intro p
    unfold allElements
    exact mem_combineDedup _ p

theorem claim_C5_witness :
    allElements doc2tu = [[0], [1]] ∧ (allElements doc2tu).Nodup ∧
    (∀ it ∈ translationItems doc2tu, it.sourceText ≠ "") := by
  have h := claim_C5 doc2tu
  refine ⟨?_, h.2.1, h.2.2.2.2.1⟩
  rw [h.1]
  decide

/- ## Derived per-field frame lemmas -/

theorem view_fields_setTextAt (t : String) (p : XmlPath) (r : XmlElem)
    (q : XmlPath) :
    tagAt? (setTextAt r p t) q = tagAt? r q ∧
    attrsAt? (setTextAt r p t) q = attrsAt? r q ∧
    tailAt? (setTextAt r p t) q = tailAt? r q ∧
    childCountAt? (setTextAt r p t) q = childCountAt? r q := by
  by_cases hq : q = p
  · subst hq
    unfold tagAt? attrsAt? tailAt? childCountAt?
    rw [(viewAt_setTextAt t q r q).2]
    cases viewAt r q <;> simp
  · unfold tagAt? attrsAt? tailAt? childCountAt?
    rw [(viewAt_setTextAt t p r q).1 hq]
    exact ⟨rfl, rfl, rfl, rfl⟩

theorem textAt?_setTextAt_ne (t : String) (p : XmlPath) (r : XmlElem)
    (q : XmlPath) (hq : q ≠ p) :
    textAt? (setTextAt r p t) q = textAt? r q := by
  unfold textAt?
  rw [(viewAt_setTextAt t p r q).1 hq]

theorem view_fields_appendChildAt (c : XmlElem) (p : XmlPath) (r : XmlElem)
    (q : XmlPath) (hv : validPath r q) :
    tagAt? (appendChildAt r p c) q = tagAt? r q ∧
    attrsAt? (appendChildAt r p c) q = attrsAt? r q ∧
    tailAt? (appendChildAt r p c) q = tailAt? r q ∧
    textAt? (appendChildAt r p c) q = textAt? r q ∧
    (q ≠ p → childCountAt? (appendChildAt r p c) q = childCountAt? r q) := by
  by_cases hq : q = p
  · subst hq
    unfold tagAt? attrsAt? tailAt? textAt? childCountAt?
    rw [(viewAt_appendChildAt c q r q).2]
    refine ⟨?_, ?_, ?_, ?_, fun h => absurd rfl h⟩ <;>
      cases viewAt r q <;> simp
  · unfold tagAt? attrsAt? tailAt? textAt? childCountAt?
    rw [(viewAt_appendChildAt c p r q).1 hv hq]
    exact ⟨rfl, rfl, rfl, rfl, fun _ => rfl⟩

theorem childCountAt?_appendChildAt_self (c : XmlElem) (p : XmlPath)
    (r : XmlElem) :
    childCountAt? (appendChildAt r p c) p =
      (childCountAt? r p).map (· + 1) := by
  unfold childCountAt?
  rw [(viewAt_appendChildAt c p r p).2]
  cases viewAt r p <;> simp

theorem validPath_of_getAt? (r : XmlElem) (q : XmlPath) (e : XmlElem)
    (h : getAt? r q = some e) : validPath r q := by
  unfold validPath
  rw [h]
  rfl

theorem tagAt?_of_getAt? (r : XmlElem) (q : XmlPath) (e : XmlElem)
    (h : getAt? r q = some e) : tagAt? r q = some e.tag := by
  unfold tagAt? viewAt
  rw [h]
  rfl

theorem childCountAt?_of_getAt? (r : XmlElem) (q : XmlPath) (e : XmlElem)
    (h : getAt? r q = some e) :
    childCountAt? r q = some e.children.length := by
  unfold childCountAt? viewAt
  rw [h]
  rfl

theorem validPath_of_tagAt? (r : XmlElem) (q : XmlPath) (s : String)
    (h : tagAt? r q = some s) : validPath r q := by
  unfold tagAt? viewAt at h
  unfold validPath
  cases hg : getAt? r q with
  | none => rw [hg] at h; exact absurd h (by simp)
  | some e => rfl

theorem applyItem_of_strip_empty (targetLanguage : String) (r : XmlElem)
    (item : TransItem) (part : String) (h : pyStrip part = "") :
    applyItem targetLanguage r item part = r := by
  simp [applyItem, h]

/- ## Validity of extracted anchor paths -/

theorem getAt?_append (p : XmlPath) :
    ∀ (r : XmlElem) (q : XmlPath),
      getAt? r (p ++ q) = (getAt? r p).bind (fun e => getAt? e q) := by
  induction p with
  | nil => intro r q; rfl
  | cons i p' ih =>
    intro r q
    show getAt? r (i :: (p' ++ q)) = _
    cases hd : r.children.get? i with
    | none =>
      rw [getAt?_cons, getAt?_cons, hd]
      rfl
    | some d =>
      rw [getAt?_cons, getAt?_cons, hd]
      exact ih d q

mutual
theorem descendantNodes_valid : ∀ (e : XmlElem) (p : XmlPath) (x : XmlElem),
    (p, x) ∈ descendantNodes e → getAt? e p = some x
  | .mk tg a tx ch tl, p, x, h => by
    have hl := descNodesList_valid ch 0 p x h
    obtain ⟨j, q, hp, _, c, hc, hcq⟩ := hl
    subst hp
    rw [getAt?_cons, children_mk]
    rw [Nat.sub_zero] at hc
    rw [hc]
    exact hcq
theorem descNodesList_valid : ∀ (cs : List XmlElem) (i : Nat) (p : XmlPath)
    (x : XmlElem), (p, x) ∈ descNodesList i cs →
      ∃ j q, p = j :: q ∧ i ≤ j ∧
        ∃ c, cs.get? (j - i) = some c ∧ getAt? c q = some x
  | [], i, p, x, h => by simp [descNodesList] at h
  | c :: cs, i, p, x, h => by
    rw [descNodesList] at h
    rcases List.mem_append.mp h with h1 | h2
    · rcases List.mem_cons.mp h1 with h3 | h4
      · injection h3 with hp hx
        subst hx
        exact ⟨i, [], hp, le_refl i, x, by simp, rfl⟩
      · rw [List.mem_map] at h4
        obtain ⟨pc, hpc, hmap⟩ := h4
        have hrec := descendantNodes_valid c pc.1 pc.2 hpc
        injection hmap with hp hx
        subst hx
        exact ⟨i, pc.1, hp.symm, le_refl i, c, by simp, hrec⟩
    · obtain ⟨j, q, hp, hij, d, hd, hdq⟩ := descNodesList_valid cs (i + 1) p x h2
      refine ⟨j, q, hp, by omega, d, ?_, hdq⟩
      have hji : j - i = (j - (i + 1)) + 1 := by omega
      rw [hji]
      exact hd
end

theorem mkItemCore_valid (root : XmlElem) (i : Nat) (p : XmlPath)
    (it : TransItem) (h : mkItemCore root i p = some it) :
    validPath root p := by
  simp only [mkItemCore] at h
  split at h
  · exact absurd h (by simp)
  · rename_i e hget
    exact validPath_of_getAt? root p e hget

theorem translationItems_elemPath_valid (root : XmlElem) :
    ∀ it ∈ translationItems root, validPath root it.elemPath := by
  intro it hit
  unfold translationItems at hit
  rw [List.mem_filterMap] at hit
  obtain ⟨ip, _, hmk⟩ := hit
  rw [(mkItemCore_fields root ip.1 ip.2 it hmk).2.1]
  exact mkItemCore_valid root ip.1 ip.2 it hmk

/- ## The reassembly frame invariant (claim C2) -/

/-- Paths whose text the write-back loop is allowed to change: a direct
segment's own element, or the existing target child of a container
segment. -/
def TextAnchor (items : List TransItem) (q : XmlPath) : Prop :=
  ∃ it ∈ items, (it.elemType = "direct" ∧ it.elemPath = q) ∨
    (it.elemType = "trans-unit" ∧ it.targetPath = some q)

/-- Paths under which the write-back loop is allowed to append a new
target child: translation-units without an existing target. -/
def AppendAnchor (items : List TransItem) (q : XmlPath) : Prop :=
  ∃ it ∈ items, it.elemType = "trans-unit" ∧ it.targetPath = none ∧
    it.elemPath = q

/-- A path that did not exist in the original tree and now holds a
freshly appended, childless target element directly under the
translation-unit of a container segment without an existing target. -/
def GoodNewTarget (root : XmlElem) (items : List TransItem) (cur : XmlElem)
    (q : XmlPath) : Prop :=
  ∃ it ∈ items, it.elemType = "trans-unit" ∧ it.targetPath = none ∧
    ∃ n, q = it.elemPath ++ [n] ∧ ¬ validPath root q ∧
      (∃ s, tagAt? cur q = some s ∧ pyEndsWith s "target" = true) ∧
      childCountAt? cur q = some 0

/-- Everything the write-back loop preserves, relative to the parsed
input tree. -/
structure ReassemblyInv (root : XmlElem) (items : List TransItem)
    (cur : XmlElem) : Prop where
  validMono : ∀ q, validPath root q → validPath cur q
  fieldsEq : ∀ q, validPath root q → tagAt? cur q = tagAt? root q ∧
    attrsAt? cur q = attrsAt? root q ∧ tailAt? cur q = tailAt? root q
  textEq : ∀ q, validPath root q → ¬ TextAnchor items q →
    textAt? cur q = textAt? root q
  countEq : ∀ q, validPath root q →
    childCountAt? cur q = childCountAt? root q ∨
      (AppendAnchor items q ∧
        childCountAt? cur q = (childCountAt? root q).map (· + 1))
  newPaths : ∀ q, validPath cur q → validPath root q ∨
    GoodNewTarget root items cur q

theorem setText_step (root : XmlElem) (items : List TransItem)
    (cur : XmlElem) (t : String) (tp : XmlPath)
    (hanchor : TextAnchor items tp) (hinv : ReassemblyInv root items cur) :
    ReassemblyInv root items (setTextAt cur tp t) := by
  obtain ⟨h1, h2, h3, h4, h5⟩ := hinv
  refine ⟨?_, ?_, ?_, ?_, ?_⟩
  · intro q hq
    exact (validPath_setTextAt t tp cur q).mpr (h1 q hq)
  · intro q hq
    obtain ⟨ha, hb, hc, _⟩ := view_fields_setTextAt t tp cur q
    obtain ⟨ha2, hb2, hc2⟩ := h2 q hq
    exact ⟨ha.trans ha2, hb.trans hb2, hc.trans hc2⟩
  · intro q hq hna
    have hqtp : q ≠ tp := fun h => hna (by rw [h]; exact hanchor)
    exact (textAt?_setTextAt_ne t tp cur q hqtp).trans (h3 q hq hna)
  · intro q hq
    rcases h4 q hq with hc | ⟨haa, hc⟩
    · exact Or.inl ((view_fields_setTextAt t tp cur q).2.2.2.trans hc)
    · exact Or.inr ⟨haa, (view_fields_setTextAt t tp cur q).2.2.2.trans hc⟩
  · intro q hq
    have hq' : validPath cur q := (validPath_setTextAt t tp cur q).mp hq
    rcases h5 q hq' with hroot | hgood
    · exact Or.inl hroot
    · right
      obtain ⟨it, hit, hty, htp, n, hqe, hnv, ⟨s, hs, hse⟩, hcq⟩ := hgood
      exact ⟨it, hit, hty, htp, n, hqe, hnv,
        ⟨s, (view_fields_setTextAt t tp cur q).1.trans hs, hse⟩,
        (view_fields_setTextAt t tp cur q).2.2.2.trans hcq⟩

theorem append_step (root : XmlElem) (items : List TransItem) (cur : XmlElem)
    (item : TransItem) (nt : XmlElem)
    (hitem : item ∈ items) (hty : item.elemType = "trans-unit")
    (htp : item.targetPath = none)
    (hntag : pyEndsWith nt.tag "target" = true)
    (hnch : nt.children = [])
    (hvp : validPath root item.elemPath)
    (hcnt : childCountAt? cur item.elemPath = childCountAt? root item.elemPath)
    (hinv : ReassemblyInv root items cur) :
    ReassemblyInv root items (appendChildAt cur item.elemPath nt) := by
  obtain ⟨h1, h2, h3, h4, h5⟩ := hinv
  refine ⟨?_, ?_, ?_, ?_, ?_⟩
  · intro q hq
    exact validPath_appendChildAt_mono nt item.elemPath cur q (h1 q hq)
  · intro q hq
    have hqv : validPath cur q := h1 q hq
    obtain ⟨ha, hb, hc, _, _⟩ :=
      view_fields_appendChildAt nt item.elemPath cur q hqv
    obtain ⟨ha2, hb2, hc2⟩ := h2 q hq
    exact ⟨ha.trans ha2, hb.trans hb2, hc.trans hc2⟩
  · intro q hq hna
    have hqv : validPath cur q := h1 q hq
    exact ((view_fields_appendChildAt nt item.elemPath cur q hqv).2.2.2.1).trans
      (h3 q hq hna)
  · intro q hq
    by_cases hqp : q = item.elemPath
    · subst hqp
      right
      refine ⟨⟨item, hitem, hty, htp, rfl⟩, ?_⟩
      rw [childCountAt?_appendChildAt_self, hcnt]
    · have hqv : validPath cur q := h1 q hq
      rcases h4 q hq with hc | ⟨haa, hc⟩
      · exact Or.inl
          (((view_fields_appendChildAt nt item.elemPath cur q hqv).2.2.2.2
            hqp).trans hc)
      · exact Or.inr ⟨haa,
          ((view_fields_appendChildAt nt item.elemPath cur q hqv).2.2.2.2
            hqp).trans hc⟩
  · intro q hq
    rcases validPath_appendChildAt nt hnch item.elemPath cur q hq with
      hold | hnew
    · rcases h5 q hold with hroot | hgood
      · exact Or.inl hroot
      · right
        obtain ⟨it, hit, hty2, htp2, n, hqe, hnv, ⟨s, hs, hse⟩, hcq⟩ := hgood
        have hqp : q ≠ item.elemPath := fun h => hnv (by rw [h]; exact hvp)
        exact ⟨it, hit, hty2, htp2, n, hqe, hnv,
          ⟨s, ((view_fields_appendChildAt nt item.elemPath cur q
            hold).1).trans hs, hse⟩,
          ((view_fields_appendChildAt nt item.elemPath cur q hold).2.2.2.2
            hqp).trans hcq⟩
    · obtain ⟨e, he, hqe⟩ := hnew
      right
      have hroot_inval :
          ¬ validPath root (item.elemPath ++ [e.children.length]) := by
        intro hv
        unfold validPath at hv
        rw [getAt?_append] at hv
        cases hgr : getAt? root item.elemPath with
        | none => rw [hgr] at hv; simp at hv
        | some rp =>
          rw [hgr] at hv
          have hv2 : (getAt? rp [e.children.length]).isSome = true := hv
          have hcl : e.children.length = rp.children.length := by
            have hc1 : childCountAt? cur item.elemPath =
                some e.children.length :=
              childCountAt?_of_getAt? cur item.elemPath e he
            have hc2 : childCountAt? root item.elemPath =
                some rp.children.length :=
              childCountAt?_of_getAt? root item.elemPath rp hgr
            rw [hc1, hc2] at hcnt
            injection hcnt
          have hnone : rp.children.get? e.children.length = none := by
            rw [hcl]
            exact List.get?_eq_none.mpr (le_refl _)
          rw [getAt?_cons, hnone] at hv2
          simp at hv2
      have hgetnew : getAt? (appendChildAt cur item.elemPath nt) q = some nt := by
        rw [hqe]
        exact getAt?_appendChildAt_new nt item.elemPath cur e he
      refine ⟨item, hitem, hty, htp, e.children.length, hqe, ?_, ?_, ?_⟩
      · rw [hqe]
        exact hroot_inval
      · exact ⟨nt.tag, tagAt?_of_getAt? _ q nt hgetnew, hntag⟩
      · have hcc := childCountAt?_of_getAt? _ q nt hgetnew
        rw [hcc, hnch]
        rfl

theorem applyItem_cases (targetLanguage : String) (cur : XmlElem)
    (item : TransItem) (part : String) :
    applyItem targetLanguage cur item part = cur ∨
    (pyStrip part ≠ "" ∧ item.elemType = "trans-unit" ∧
      ∃ tp, item.targetPath = some tp ∧
        applyItem targetLanguage cur item part =
          setTextAt cur tp (pyStrip part)) ∨
    (pyStrip part ≠ "" ∧ item.elemType = "trans-unit" ∧
      item.targetPath = none ∧
      ∃ src, item.sourcePath.bind (getAt? cur) = some src ∧
        applyItem targetLanguage cur item part =
          appendChildAt cur item.elemPath
            (newTargetElem src targetLanguage (pyStrip part))) ∨
    (pyStrip part ≠ "" ∧ item.elemType = "direct" ∧
      applyItem targetLanguage cur item part =
        setTextAt cur item.elemPath (pyStrip part)) := by
  by_cases hemp : pyStrip part = ""
  · exact Or.inl (applyItem_of_strip_empty _ _ _ _ hemp)
  · by_cases hty : item.elemType = "trans-unit"
    · cases htp : item.targetPath with
      | some tp =>
        exact Or.inr (Or.inl ⟨hemp, hty, tp, rfl,
          by simp [applyItem, hemp, hty, htp]⟩)
      | none =>
        cases hsrc : item.sourcePath.bind (getAt? cur) with
        | none => exact Or.inl (by simp [applyItem, hemp, hty, htp, hsrc])
        | some src =>
          exact Or.inr (Or.inr (Or.inl ⟨hemp, hty, rfl, src, rfl,
            by simp [applyItem, hemp, hty, htp, hsrc]⟩))
    · by_cases hdir : item.elemType = "direct"
      · exact Or.inr (Or.inr (Or.inr ⟨hemp, hdir,
          by simp [applyItem, hemp, hty, hdir]⟩))
      · exact Or.inl (by simp [applyItem, hemp, hty, hdir])

theorem applyItem_preserves (root : XmlElem) (items : List TransItem)
    (targetLanguage : String) (cur : XmlElem) (item : TransItem)
    (part : String) (hitem : item ∈ items)
    (hvp : validPath root item.elemPath)
    (hcnt : item.elemType = "trans-unit" → item.targetPath = none →
      childCountAt? cur item.elemPath = childCountAt? root item.elemPath)
    (hinv : ReassemblyInv root items cur) :
    ReassemblyInv root items (applyItem targetLanguage cur item part) ∧
    (∀ p2, validPath cur p2 → p2 ≠ item.elemPath →
      childCountAt? (applyItem targetLanguage cur item part) p2 =
        childCountAt? cur p2) := by
  rcases applyItem_cases targetLanguage cur item part with
    hid | ⟨hemp, hty, tp, htp, happ⟩ | ⟨hemp, hty, htp, src, hsrc, happ⟩ |
    ⟨hemp, hdir, happ⟩
  · rw [hid]
    exact ⟨hinv, fun _ _ _ => rfl⟩
  · rw [happ]
    refine ⟨setText_step root items cur _ tp
      ⟨item, hitem, Or.inr ⟨hty, htp⟩⟩ hinv, ?_⟩
    intro p2 _ _
    exact (view_fields_setTextAt _ tp cur p2).2.2.2
  · rw [happ]
    have hntag : pyEndsWith
        (newTargetElem src targetLanguage (pyStrip part)).tag "target" = true := by
      rw [show (newTargetElem src targetLanguage (pyStrip part)).tag =
        targetTagOf src.tag from rfl, targetTagOf_eq]
      exact pyEndsWith_append _ _
    refine ⟨append_step root items cur item _ hitem hty htp hntag rfl hvp
      (hcnt hty htp) hinv, ?_⟩
    intro p2 hp2v hp2ne
    exact (view_fields_appendChildAt _ item.elemPath cur p2 hp2v).2.2.2.2 hp2ne
  · rw [happ]
    refine ⟨setText_step root items cur _ item.elemPath
      ⟨item, hitem, Or.inl ⟨hdir, rfl⟩⟩ hinv, ?_⟩
    intro p2 _ _
    exact (view_fields_setTextAt _ item.elemPath cur p2).2.2.2

theorem applyFold_inv (root : XmlElem) (items : List TransItem)
    (targetLanguage : String)
    (hvalidAll : ∀ it ∈ items, validPath root it.elemPath) :
    ∀ (pending : List (TransItem × String)) (cur : XmlElem),
      (∀ x ∈ pending, x.1 ∈ items) →
      List.Pairwise
        (fun a b : TransItem × String => a.1.elemPath ≠ b.1.elemPath) pending →
      (∀ x ∈ pending, x.1.elemType = "trans-unit" → x.1.targetPath = none →
        childCountAt? cur x.1.elemPath = childCountAt? root x.1.elemPath) →
      ReassemblyInv root items cur →
      ReassemblyInv root items
        (pending.foldl
          (fun acc ip => applyItem targetLanguage acc ip.1 ip.2) cur) := by
  intro pending
  induction pending with
  | nil =>
    intro cur _ _ _ hinv
    exact hinv
  | cons x xs ih =>
    intro cur hmem hpw hcnt hinv
    rw [List.foldl_cons]
    have hx1 : x.1 ∈ items := hmem x (List.mem_cons_self x xs)
    have hvx : validPath root x.1.elemPath := hvalidAll x.1 hx1
    have hstep := applyItem_preserves root items targetLanguage cur x.1 x.2
      hx1 hvx (fun h1 h2 => hcnt x (List.mem_cons_self x xs) h1 h2) hinv
    apply ih (applyItem targetLanguage cur x.1 x.2)
      (fun y hy => hmem y (List.mem_cons_of_mem x hy))
      (List.pairwise_cons.mp hpw).2 ?_ hstep.1
    intro y hy hy1 hy2
    have hyne : y.1.elemPath ≠ x.1.elemPath :=
      fun h => ((List.pairwise_cons.mp hpw).1 y hy) h.symm
    have hyv : validPath cur y.1.elemPath :=
      hinv.validMono y.1.elemPath
        (hvalidAll y.1 (hmem y (List.mem_cons_of_mem x hy)))
    rw [hstep.2 y.1.elemPath hyv hyne]
    exact hcnt y (List.mem_cons_of_mem x hy) hy1 hy2

/-- C2: relative to the parsed input tree, the write-back loop changes
nothing except the text of its own anchor nodes and the appending of at
most one new childless target element under each container-pair without
an existing target: every original path keeps its tag, attributes and
tail; text changes only at anchor paths; child counts change, by exactly
one, only at append anchors; and every path of the output that did not
exist in the input holds a freshly appended target under such an
anchor.  Element ordering is preserved because original paths stay valid
and refer to nodes with unchanged local structure. -/
theorem claim_C2 (root : XmlElem) (response : String)
    (targetLanguage : String) :
    (∀ q, validPath root q →
      validPath (translateTree root response targetLanguage) q ∧
      tagAt? (translateTree root response targetLanguage) q = tagAt? root q ∧
      attrsAt? (translateTree root response targetLanguage) q =
        attrsAt? root q ∧
      tailAt? (translateTree root response targetLanguage) q =
        tailAt? root q) ∧
    (∀ q, validPath root q → ¬ TextAnchor (translationItems root) q →
      textAt? (translateTree root response targetLanguage) q =
        textAt? root q) ∧
    (∀ q, validPath root q →
      childCountAt? (translateTree root response targetLanguage) q =
        childCountAt? root q ∨
      (AppendAnchor (translationItems root) q ∧
        childCountAt? (translateTree root response targetLanguage) q =
          (childCountAt? root q).map (· + 1))) ∧
    (∀ q, validPath (translateTree root response targetLanguage) q →
      validPath root q ∨
        GoodNewTarget root (translationItems root)
          (translateTree root response targetLanguage) q) := by
  have hlen : (reconciledParts response (translationItems root).length).length
      = (translationItems root).length := reconcile_length _ _
  have hpairs : List.Pairwise
      (fun a b : TransItem × String => a.1.elemPath ≠ b.1.elemPath)
      ((translationItems root).zip
        (reconciledParts response (translationItems root).length)) := by
    have h1 : List.Pairwise (fun a b : TransItem => a.elemPath ≠ b.elemPath)
        (translationItems root) :=
      (List.pairwise_map' TransItem.elemPath).mp
        (translationItems_elemPath_nodup root)
    have h2 : (((translationItems root).zip
        (reconciledParts response (translationItems root).length)).map
          Prod.fst).Pairwise
        (fun a b : TransItem => a.elemPath ≠ b.elemPath) := by
      rw [List.map_fst_zip _ _ (le_of_eq hlen.symm)]
      exact h1
    exact (List.pairwise_map' Prod.fst).mp h2
  have hbase : ReassemblyInv root (translationItems root) root :=
    ⟨fun q h => h, fun _ _ => ⟨rfl, rfl, rfl⟩, fun _ _ _ => rfl,
     fun _ _ => Or.inl rfl, fun _ h => Or.inl h⟩
  have hres := applyFold_inv root (translationItems root) targetLanguage
    (translationItems_elemPath_valid root)
    ((translationItems root).zip
      (reconciledParts response (translationItems root).length))
    root
    (fun x hx => (List.of_mem_zip hx).1)
    hpairs
    (fun _ _ _ _ => rfl)
    hbase
  have htt : translateTree root response targetLanguage =
      ((translationItems root).zip
        (reconciledParts response (translationItems root).length)).foldl
        (fun acc ip => applyItem targetLanguage acc ip.1 ip.2) root := rfl
  rw [htt]
  obtain ⟨h1, h2, h3, h4, h5⟩ := hres
  exact ⟨fun q hq => ⟨h1 q hq, (h2 q hq).1, (h2 q hq).2.1, (h2 q hq).2.2⟩,
    h3, h4, h5⟩

theorem claim_C2_witness :
    tagAt? (translateTree doc2tu respSegments "fr") [0] = tagAt? doc2tu [0] ∧
    textAt? (translateTree doc2tu respSegments "fr") [0, 0] =
      textAt? doc2tu [0, 0] := by
  have h := claim_C2 doc2tu respSegments "fr"
  refine ⟨(h.1 [0] (by unfold validPath; decide)).2.1, ?_⟩
  refine h.2.1 [0, 0] (by unfold validPath; decide) ?_
  unfold TextAnchor
  decide
